import Mathlib

/-!
Verification development for the speaker-transcript fusion and identification
core (`buildspeakertraans.py`, `speakerrecogniser.py`).

Python floats are modelled as `Rat`; per-line text processing is modelled on
`List Char`; the torch/scipy numeric externals (the embedding encoder and
`scipy.spatial.distance.cosine`) are abstracted as function parameters, while
all control flow of this repository's own code is embedded faithfully.
-/

namespace MeetAI

/-- Characters Python's `str.strip` / `str.split` / regex `\s` treat as
whitespace (the ASCII whitespace set; this pipeline's inputs contain no
exotic Unicode whitespace). -/
def pyIsSpace (c : Char) : Bool :=
  c = ' ' || c = '\t' || c = '\n' || c = '\r' || c = '\x0b' || c = '\x0c'

/-- Python `s.strip()` on a character list. -/
def pyStrip (cs : List Char) : List Char :=
  ((cs.dropWhile pyIsSpace).reverse.dropWhile pyIsSpace).reverse

/-- Worker for `pySplit`, carrying the current (reversed) in-progress token. -/
def pySplitGo : List Char → List Char → List (List Char)
  | [], cur => if cur = [] then [] else [cur.reverse]
  | c :: rest, cur =>
    if pyIsSpace c then
      if cur = [] then pySplitGo rest [] else cur.reverse :: pySplitGo rest []
    else pySplitGo rest (c :: cur)

/-- Python `s.split()` with no separator: split on whitespace runs, dropping
empty tokens. -/
def pySplit (cs : List Char) : List (List Char) := pySplitGo cs []

/-- Numeric value of a decimal digit character. -/
def digitVal (c : Char) : Nat := c.toNat - '0'.toNat

/-- Value of a list of decimal digit characters. -/
def digitsToNat (ds : List Char) : Nat := ds.foldl (fun n c => 10 * n + digitVal c) 0

/-- Magnitude part of the modelled Python `float(...)`: decimal digits with an
optional fractional part. -/
def pyFloatMag (cs : List Char) : Option Rat :=
  let intPart := cs.takeWhile Char.isDigit
  let rest := cs.dropWhile Char.isDigit
  match rest with
  | [] => if intPart = [] then none else some (digitsToNat intPart)
  | '.' :: frac =>
    if frac.all Char.isDigit ∧ (intPart ≠ [] ∨ frac ≠ []) then
      some ((digitsToNat intPart : Rat) + (digitsToNat frac : Rat) / 10 ^ frac.length)
    else none
  | _ => none

/-- Modelled subset of Python `float(...)`: optional sign, then decimal digits
with an optional fractional part (the only float syntax these upstream text
formats produce; exponents / `inf` / `nan` are omitted). Returns `none` where
Python raises `ValueError`. -/
def pyFloat (cs : List Char) : Option Rat :=
  match cs with
  | '-' :: rest => (pyFloatMag rest).map (fun q => -q)
  | '+' :: rest => pyFloatMag rest
  | _ => pyFloatMag cs

/-- Python builtin `min(a, b)`: keeps the first argument on ties. -/
def pyMin (a b : Rat) : Rat := if b < a then b else a

/-- Python builtin `max(a, b)`: keeps the first argument on ties. -/
def pyMax (a b : Rat) : Rat := if a < b then b else a

/-- Python `int(x)` on a float: truncation toward zero. -/
def pyInt (q : Rat) : Int := if q < 0 then -((-q).floor) else q.floor

/-- Python sequence slicing `a[s:e]`: negative indices count from the end,
out-of-range bounds are clamped, an empty range yields an empty slice. -/
def pySlice {α : Type} (a : List α) (s e : Int) : List α :=
  let n : Int := a.length
  let s2 := if s < 0 then max (n + s) 0 else min s n
  let e2 := if e < 0 then max (n + e) 0 else min e n
  (a.drop s2.toNat).take (e2 - s2).toNat

/-! ### speakerrecogniser.py -/

/-- Source constant `THRESHOLD = 0.70`. -/
def THRESHOLD : Rat := 7 / 10

/-- Embedding of `identify_speaker` from `speakerrecogniser.py`, modelled from
the point where the query embedding `emb` has been obtained (the torch encoder
is an external capability). `cosine` stands for `scipy.spatial.distance.cosine`
and `speakers` for the enrollment database `SPEAKERS` in iteration order. -/
def identify_speaker {α : Type} (cosine : α → α → Rat) (speakers : List (String × α))
    (emb : α) : String × Rat :=
  let r := speakers.foldl
    (fun best p => if cosine emb p.2 < best.2 then (p.1, cosine emb p.2) else best)
    ("Unknown", (1 : Rat))
  if THRESHOLD < r.2 then ("Unknown", r.2) else r

/-! ### buildspeakertraans.py -/

/-- Source constant `SAMPLE_RATE = 16000`. -/
def SAMPLE_RATE : Nat := 16000

/-- Diarization result: speaker label to interval list, in insertion order
(Python dicts preserve insertion order). -/
abbrev DiarSegments := List (String × List (Rat × Rat))

/-- The `defaultdict(list)` update `segments[speaker].append(iv)`. -/
def addSeg : DiarSegments → String → (Rat × Rat) → DiarSegments
  | [], spk, iv => [(spk, [iv])]
  | (k, vs) :: rest, spk, iv =>
    if k = spk then (k, vs ++ [iv]) :: rest else (k, vs) :: addSeg rest spk iv

/-- Field access `p[i]` on a split line (total, with a default that never
occurs on the guarded paths). -/
def fieldAt (p : List (List Char)) (i : Nat) : List Char := p.getD i []

/-- Loop body of `load_rttm`: fold over the input lines. `Except.error` models
both the explicit `fail(...)` exit and an uncaught `ValueError` from
`float(...)`; either way the process exits nonzero. -/
def load_rttmGo : List String → DiarSegments → Except String DiarSegments
  | [], segs => if segs = [] then .error "No diarization segments found" else .ok segs
  | line :: rest, segs =>
    let p := pySplit (pyStrip line.data)
    if p.length < 8 then load_rttmGo rest segs
    else
      match pyFloat (fieldAt p 3) with
      | none => .error "ValueError"
      | some start =>
        match pyFloat (fieldAt p 4) with
        | none => .error "ValueError"
        | some dur => load_rttmGo rest (addSeg segs (String.mk (fieldAt p 7)) (start, start + dur))

/-- Embedding of `load_rttm`. -/
def load_rttm (lines : List String) : Except String DiarSegments :=
  load_rttmGo lines []

/-- Regex `\s*`: maximal run of whitespace. -/
def skipSpaces (cs : List Char) : List Char := cs.dropWhile pyIsSpace

/-- Regex `\d+\.?\d*` followed by conversion via `float(...)`: greedy digits,
optional dot, greedy digits; returns the numeric value and the rest of the
input. Greedy matching is exact here because the characters that may follow
this group in the transcript pattern are never digits or a dot. -/
def numTok (cs : List Char) : Option (Rat × List Char) :=
  if cs.takeWhile Char.isDigit = [] then none
  else
    match cs.dropWhile Char.isDigit with
    | c :: rest2 =>
      if c = '.' then
        some ((digitsToNat (cs.takeWhile Char.isDigit) : Rat)
            + (digitsToNat (rest2.takeWhile Char.isDigit) : Rat)
              / 10 ^ (rest2.takeWhile Char.isDigit).length,
          rest2.dropWhile Char.isDigit)
      else some ((digitsToNat (cs.takeWhile Char.isDigit) : Rat), c :: rest2)
    | [] => some ((digitsToNat (cs.takeWhile Char.isDigit) : Rat), [])

/-- The four arrow alternatives of the transcript regex, in alternation order:
`→`, `->`, `–`, `-`. -/
def ARROWS : List (List Char) := [['→'], ['-', '>'], ['–'], ['-']]

/-- Match a literal character-list prefix, returning the remainder. -/
def stripPrefixChars : List Char → List Char → Option (List Char)
  | [], cs => some cs
  | a :: ps, c :: cs => if c = a then stripPrefixChars ps cs else none
  | _ :: _, [] => none

/-- Continuation of the transcript regex after the arrow:
`\s*(\d+\.?\d*)\s*\]\s*(.+)`. The trailing `(.+)` is greedy over non-newline
characters and must be non-empty; `re.match` does not anchor the end. -/
def afterArrow (cs : List Char) : Option (Rat × String) :=
  match numTok (skipSpaces cs) with
  | none => none
  | some (v2, r1) =>
    match skipSpaces r1 with
    | c :: r2 =>
      if c = ']' then
        if (skipSpaces r2).takeWhile (fun ch => ch ≠ '\n') = [] then none
        else some (v2, String.mk ((skipSpaces r2).takeWhile (fun ch => ch ≠ '\n')))
      else none
    | [] => none

/-- One ordered alternative of the arrow alternation: on a prefix match run the
continuation, backtracking to `k` if the prefix or the continuation fails. -/
def tryArrow (a : List Char) (cs : List Char) (k : Option (Rat × String)) :
    Option (Rat × String) :=
  match stripPrefixChars a cs with
  | some rest =>
    match afterArrow rest with
    | some r => some r
    | none => k
  | none => k

/-- The arrow alternation `(?:→|->|–|-)` with its continuation, in PCRE ordered
alternation order with backtracking. -/
def matchArrowThen (cs : List Char) : Option (Rat × String) :=
  tryArrow ['→'] cs (tryArrow ['-', '>'] cs (tryArrow ['–'] cs (tryArrow ['-'] cs none)))

/-- Embedding of `pattern.match(...)` for the transcript regex
`\[\s*(\d+\.?\d*)\s*(?:→|->|–|-)\s*(\d+\.?\d*)\s*\]\s*(.+)`. The greedy
pieces (`\s*`, `\d+\.?\d*`, the literal brackets) have follow sets disjoint
from the characters they consume, so maximal munch coincides with regex
backtracking; the one live backtracking point, the arrow alternation, is
implemented with its ordered-alternative continuation. -/
def matchLine (cs : List Char) : Option (Rat × Rat × String) :=
  match cs with
  | c :: r0 =>
    if c = '[' then
      match numTok (skipSpaces r0) with
      | none => none
      | some (v1, r1) =>
        match matchArrowThen (skipSpaces r1) with
        | none => none
        | some (v2, txt) => some (v1, v2, txt)
    else none
  | [] => none

/-- One parsed transcript utterance (`{"start": ..., "end": ..., "text": ...}`). -/
structure Chunk where
  start : Rat
  end_ : Rat
  text : String
deriving Repr, DecidableEq

/-- Per-line step of `load_transcript`: strip the line, then match the
transcript regex. -/
def parseTranscriptLine (line : String) : Option (Rat × Rat × String) :=
  matchLine (pyStrip line.data)

/-- Loop body of `load_transcript`. -/
def load_transcriptGo : List String → List Chunk → Except String (List Chunk)
  | [], chunks => if chunks = [] then .error "No transcript segments parsed" else .ok chunks
  | line :: rest, chunks =>
    match parseTranscriptLine line with
    | some (v1, v2, txt) => load_transcriptGo rest (chunks ++ [⟨v1, v2, txt⟩])
    | none => load_transcriptGo rest chunks

/-- Embedding of `load_transcript`. -/
def load_transcript (lines : List String) : Except String (List Chunk) :=
  load_transcriptGo lines []

/-- Embedding of `find_speaker`: scan all labels and their intervals, keeping
the strictly best positive overlap. -/
def find_speaker (start end_ : Rat) (diar : DiarSegments) : String :=
  (diar.foldl (fun best p =>
      p.2.foldl (fun b seg =>
        let overlap := pyMin end_ seg.2 - pyMax start seg.1
        if overlap > b.2 ∧ overlap > 0 then (p.1, overlap) else b) best)
    ("UNKNOWN", (0 : Rat))).1

/-- Audio slice of one diarized interval:
`audio[int(start*SAMPLE_RATE):int(end*SAMPLE_RATE)]`. -/
def sliceOf (audio : List Rat) (iv : Rat × Rat) : List Rat :=
  pySlice audio (pyInt (iv.1 * (SAMPLE_RATE : Rat))) (pyInt (iv.2 * (SAMPLE_RATE : Rat)))

/-- Per-label accumulation loop of `build_speaker_name_map`: append each
interval's slice, breaking once the cumulative sample count strictly exceeds
`SAMPLE_RATE * 15` (the check runs after the append). -/
def accumSamples (audio : List Rat) : List (Rat × Rat) → List (List Rat) → List (List Rat)
  | [], samples => samples
  | iv :: rest, samples =>
    let samples2 := samples ++ [sliceOf audio iv]
    if SAMPLE_RATE * 15 < (samples2.map List.length).sum then samples2
    else accumSamples audio rest samples2

/-- Python dict assignment `m[k] = v` on an insertion-ordered association
list. -/
def dictSet {β : Type} : List (String × β) → String → β → List (String × β)
  | [], k, v => [(k, v)]
  | (k0, v0) :: rest, k, v =>
    if k0 = k then (k0, v) :: rest else (k0, v0) :: dictSet rest k v

/-- Loop body of `build_speaker_name_map`. -/
def build_speaker_name_mapGo (identify : List Rat → String × Rat) (audio : List Rat) :
    DiarSegments → List (String × String) → List (String × String)
  | [], m => m
  | (spk, times) :: rest, m =>
    let clip := (accumSamples audio times []).flatten
    build_speaker_name_mapGo identify audio rest (dictSet m spk (identify clip).1)

/-- Embedding of `build_speaker_name_map`; `identify` stands for the imported
`identify_speaker` capability (encoder plus matcher). -/
def build_speaker_name_map (identify : List Rat → String × Rat) (audio : List Rat)
    (diar : DiarSegments) : List (String × String) :=
  build_speaker_name_mapGo identify audio diar []

/-- Round half to even, as Python's float formatting does. -/
def roundHalfEven (q : Rat) : Int :=
  let f := q.floor
  let frac := q - f
  if frac < 1 / 2 then f
  else if (1 : Rat) / 2 < frac then f + 1
  else if f % 2 = 0 then f else f + 1

/-- Python `f"{x:.2f}"` two-decimal rendering, on the rational model. -/
def fmt2 (q : Rat) : String :=
  let n := roundHalfEven (q * 100)
  let sign := if n < 0 then "-" else ""
  let m := n.natAbs
  sign ++ toString (m / 100) ++ "." ++ (if m % 100 < 10 then "0" else "") ++ toString (m % 100)

/-- One output line of `main`'s fusion loop:
`f"[{t.start:.2f}–{t.end:.2f}] {spk_name}: {t.text}"` with
`spk_name = speaker_name_map.get(spk_id, spk_id)`. -/
def renderLine (diar : DiarSegments) (nameMap : List (String × String)) (t : Chunk) : String :=
  let spk_id := find_speaker t.start t.end_ diar
  let spk_name := (nameMap.lookup spk_id).getD spk_id
  "[" ++ fmt2 t.start ++ "–" ++ fmt2 t.end_ ++ "] " ++ spk_name ++ ": " ++ t.text

/-- The fused-transcript loop of `main`: one appended line per utterance, in
transcript order. -/
def fuse (transcript : List Chunk) (diar : DiarSegments) (nameMap : List (String × String)) :
    List String :=
  transcript.foldl (fun lines t => lines ++ [renderLine diar nameMap t]) []

/-- The fatal-precondition prefix of `main`: load diarization, load transcript,
then check the audio sample rate against `SAMPLE_RATE`. -/
def pipelinePreflight (rttmLines transLines : List String) (sr : Nat) :
    Except String (DiarSegments × List Chunk) :=
  match load_rttm rttmLines with
  | .error e => .error e
  | .ok diar =>
    match load_transcript transLines with
    | .error e => .error e
    | .ok transcript =>
      if sr ≠ SAMPLE_RATE then .error "Audio must be 16kHz" else .ok (diar, transcript)

/-! ### Spec-side definitions, used to state the claims -/

/-- Overlap score of an utterance `[start, end)` against one diarized interval:
`min(utterance.end, e) − max(utterance.start, s)`. -/
def ovScore (start end_ : Rat) (seg : Rat × Rat) : Rat :=
  pyMin end_ seg.2 - pyMax start seg.1

/-- All diarized intervals with their labels, flattened in iteration order
(labels in mapping order, each label's intervals in stored order). -/
def labeledSegs (diar : DiarSegments) : List (String × (Rat × Rat)) :=
  diar.foldr (fun p acc => p.2.map (fun seg => (p.1, seg)) ++ acc) []

/-- Running maximum of a score over a list, from an initial bound. -/
def maxScoreFold {β : Type} (score : β → Rat) (b : Rat) (l : List β) : Rat :=
  l.foldl (fun m x => pyMax m (score x)) b

/-- Running minimum of a score over a list, from an initial bound. -/
def minScoreFold {β : Type} (score : β → Rat) (b : Rat) (l : List β) : Rat :=
  l.foldl (fun m x => pyMin m (score x)) b

/-- Attribution policy as the specification words it: the label of the interval
with the strictly largest positive overlap, the first-seen label winning ties,
and the sentinel `"UNKNOWN"` when no interval has positive overlap. -/
def attributeSpec (start end_ : Rat) (ps : List (String × (Rat × Rat))) : String :=
  let M := maxScoreFold (fun p => ovScore start end_ p.2) 0 ps
  match ps.find? (fun p =>
      decide (0 < ovScore start end_ p.2) && decide (ovScore start end_ p.2 = M)) with
  | some p => p.1
  | none => "UNKNOWN"

/-- Matcher behaviour as amended: the reported distance is the enrollment
minimum clamped from above by the initial best score `1`; an entry is selected
(first achiever wins ties) only when that clamped minimum does not exceed the
threshold. -/
def matchSpec {α : Type} (cosine : α → α → Rat) (speakers : List (String × α)) (emb : α) :
    String × Rat :=
  let m := minScoreFold (fun p => cosine emb p.2) 1 speakers
  if THRESHOLD < m then ("Unknown", m)
  else
    match speakers.find? (fun p => decide (cosine emb p.2 = m)) with
    | some p => (p.1, m)
    | none => ("Unknown", m)

/-- A raw diarization line with at least the required number of fields — what
the C7 claim calls a valid record. -/
def validRec (line : String) : Bool :=
  8 ≤ (pySplit (pyStrip line.data)).length

/-- A diarization line with enough fields whose start or duration field does
not parse as a float (Python's `float(...)` raises on it). -/
def badFloatRec (line : String) : Bool :=
  validRec line &&
    ((pyFloat (fieldAt (pySplit (pyStrip line.data)) 3)).isNone ||
      (pyFloat (fieldAt (pySplit (pyStrip line.data)) 4)).isNone)

/-- Text of a number matched by the regex group `\d+\.?\d*`: integer digits,
then an optional dot with fractional digits. -/
def numLit (i : List Char) (dot : Bool) (f : List Char) : List Char :=
  i ++ if dot then '.' :: f else []

/-- Value `float(...)` assigns to a matched `\d+\.?\d*` group. -/
def numVal (i : List Char) (dot : Bool) (f : List Char) : Rat :=
  if dot then (digitsToNat i : Rat) + (digitsToNat f : Rat) / 10 ^ f.length
  else (digitsToNat i : Rat)

/-- A transcript line with an explicit arrow component: bracket, whitespace,
first timestamp, whitespace, arrow, whitespace, second timestamp, whitespace,
closing bracket, and arbitrary tail text. Two such lines with the same
components and different arrows are the claim's lines differing only in the
arrow glyph. -/
def mkTLine (w1 i1 : List Char) (d1 : Bool) (f1 w2 a w3 i2 : List Char) (d2 : Bool)
    (f2 w4 tail : List Char) : String :=
  String.mk ('[' :: (w1 ++ numLit i1 d1 f1 ++ w2 ++ a ++ w3 ++ numLit i2 d2 f2
    ++ w4 ++ ']' :: tail))

/-- The two-speaker diarization example from the specification:
`A=[0,5)->"S1"`, `B=[5,10)->"S2"`. -/
def exDiar : DiarSegments := [("S1", [(0, 5)]), ("S2", [(5, 10)])]

/-! ### Helper lemmas -/

theorem digitVal_0 : digitVal '0' = 0 := by decide

theorem digitVal_1 : digitVal '1' = 1 := by decide

theorem digitVal_2 : digitVal '2' = 2 := by decide

theorem digitVal_3 : digitVal '3' = 3 := by decide

theorem digitVal_4 : digitVal '4' = 4 := by decide

theorem digitVal_5 : digitVal '5' = 5 := by decide

theorem digitVal_6 : digitVal '6' = 6 := by decide

theorem digitVal_7 : digitVal '7' = 7 := by decide

theorem digitVal_9 : digitVal '9' = 9 := by decide

theorem find?_congr {β : Type} {p q : β → Bool} :
    ∀ (l : List β), (∀ x ∈ l, p x = q x) → l.find? p = l.find? q
  | [], _ => rfl
  | x :: xs, h => by
    have hx : p x = q x := h x (List.mem_cons_self x xs)
    by_cases hq : q x = true
    · rw [List.find?_cons_of_pos _ (hx ▸ hq), List.find?_cons_of_pos _ hq]
    · rw [List.find?_cons_of_neg _ (hx ▸ hq), List.find?_cons_of_neg _ hq]
      exact find?_congr xs (fun y hy => h y (List.mem_cons_of_mem x hy))

theorem le_maxScoreFold_init {β : Type} (score : β → Rat) :
    ∀ (l : List β) (b : Rat), b ≤ maxScoreFold score b l
  | [], b => le_refl b
  | x :: xs, b => by
    rw [maxScoreFold, List.foldl_cons]
    refine le_trans ?_ (le_maxScoreFold_init score xs (pyMax b (score x)))
    unfold pyMax
    split <;> [exact le_of_lt (by assumption); exact le_refl b]

theorem maxScoreFold_attained {β : Type} (score : β → Rat) :
    ∀ (l : List β) (b : Rat),
      maxScoreFold score b l = b ∨ ∃ x ∈ l, score x = maxScoreFold score b l
  | [], b => Or.inl rfl
  | x :: xs, b => by
    rw [maxScoreFold, List.foldl_cons]
    have h := maxScoreFold_attained score xs (pyMax b (score x))
    rcases h with h | ⟨y, hy, hsy⟩
    · rw [show xs.foldl (fun m z => pyMax m (score z)) (pyMax b (score x))
          = maxScoreFold score (pyMax b (score x)) xs from rfl, h]
      unfold pyMax
      split
      · exact Or.inr ⟨x, List.mem_cons_self x xs, rfl⟩
      · exact Or.inl rfl
    · exact Or.inr ⟨y, List.mem_cons_of_mem x hy, hsy⟩

theorem min_minScoreFold_init {β : Type} (score : β → Rat) :
    ∀ (l : List β) (b : Rat), minScoreFold score b l ≤ b
  | [], b => le_refl b
  | x :: xs, b => by
    rw [minScoreFold, List.foldl_cons]
    refine le_trans (min_minScoreFold_init score xs (pyMin b (score x))) ?_
    unfold pyMin
    split <;> [exact le_of_lt (by assumption); exact le_refl b]

theorem minScoreFold_attained {β : Type} (score : β → Rat) :
    ∀ (l : List β) (b : Rat),
      minScoreFold score b l = b ∨ ∃ x ∈ l, score x = minScoreFold score b l
  | [], b => Or.inl rfl
  | x :: xs, b => by
    rw [minScoreFold, List.foldl_cons]
    have h := minScoreFold_attained score xs (pyMin b (score x))
    rcases h with h | ⟨y, hy, hsy⟩
    · rw [show xs.foldl (fun m z => pyMin m (score z)) (pyMin b (score x))
          = minScoreFold score (pyMin b (score x)) xs from rfl, h]
      unfold pyMin
      split
      · exact Or.inr ⟨x, List.mem_cons_self x xs, rfl⟩
      · exact Or.inl rfl
    · exact Or.inr ⟨y, List.mem_cons_of_mem x hy, hsy⟩

theorem foldl_argmax {β : Type} (score : β → Rat) (g : β → String) :
    ∀ (l : List β) (nm : String) (b : Rat),
      l.foldl (fun acc x => if acc.2 < score x then (g x, score x) else acc) (nm, b)
        = match l.find? (fun x =>
              decide (b < score x) && decide (score x = maxScoreFold score b l)) with
          | some x => (g x, maxScoreFold score b l)
          | none => (nm, b)
  | [], nm, b => rfl
  | x :: xs, nm, b => by
    by_cases hx : b < score x
    · rw [List.foldl_cons]
      simp only [show ((nm, b).2 : Rat) = b from rfl, if_pos hx]
      rw [foldl_argmax score g xs (g x) (score x)]
      have hmaxc : maxScoreFold score b (x :: xs) = maxScoreFold score (score x) xs := by
        rw [maxScoreFold, List.foldl_cons,
          show pyMax b (score x) = score x from by unfold pyMax; rw [if_pos hx]]
        rfl
      by_cases hxM : score x = maxScoreFold score (score x) xs
      · have hpred : (decide (b < score x)
            && decide (score x = maxScoreFold score b (x :: xs))) = true := by
          rw [hmaxc]
          simp [hx, ← hxM]
        rw [@List.find?_cons_of_pos _ (fun y => decide (b < score y) && decide (score y = maxScoreFold score b (x :: xs))) x xs hpred]
        have hnone : xs.find? (fun y => decide (score x < score y)
            && decide (score y = maxScoreFold score (score x) xs)) = none := by
          rw [List.find?_eq_none]
          intro y _
          simp only [Bool.and_eq_true, decide_eq_true_eq, not_and]
          intro h1 h2
          rw [← hxM] at h2
          exact absurd h2 (ne_of_gt h1)
        rw [hnone, hmaxc, ← hxM]
      · have hlt : score x < maxScoreFold score (score x) xs :=
          lt_of_le_of_ne (le_maxScoreFold_init score xs (score x)) hxM
        have hpredF : ¬((decide (b < score x)
            && decide (score x = maxScoreFold score b (x :: xs))) = true) := by
          rw [hmaxc]
          simp only [Bool.and_eq_true, decide_eq_true_eq, not_and]
          intro _ h
          exact hxM h
        rw [@List.find?_cons_of_neg _ (fun y => decide (b < score y) && decide (score y = maxScoreFold score b (x :: xs))) x xs hpredF]
        have hcong : xs.find? (fun y => decide (score x < score y)
              && decide (score y = maxScoreFold score (score x) xs))
            = xs.find? (fun y => decide (b < score y)
              && decide (score y = maxScoreFold score b (x :: xs))) := by
          apply find?_congr
          intro y _
          rw [hmaxc]
          by_cases hyM : score y = maxScoreFold score (score x) xs
          · simp [hyM, hlt, lt_trans hx hlt]
          · simp [hyM]
        rw [hcong]
        cases hfind : xs.find? (fun y => decide (b < score y)
            && decide (score y = maxScoreFold score b (x :: xs))) with
        | some y => rw [hmaxc]
        | none =>
          exfalso
          rcases maxScoreFold_attained score xs (score x) with h | ⟨y, hy, hsy⟩
          · exact hxM h.symm
          · rw [List.find?_eq_none] at hfind
            apply hfind y hy
            simp only [Bool.and_eq_true, decide_eq_true_eq]
            exact ⟨lt_trans hx (hsy ▸ hlt), by rw [hmaxc, ← hsy]⟩
    · rw [List.foldl_cons]
      simp only [show ((nm, b).2 : Rat) = b from rfl, if_neg hx]
      rw [foldl_argmax score g xs nm b]
      have hmaxc : maxScoreFold score b (x :: xs) = maxScoreFold score b xs := by
        rw [maxScoreFold, List.foldl_cons,
          show pyMax b (score x) = b from by unfold pyMax; rw [if_neg hx]]
        rfl
      have hpredF : ¬((decide (b < score x)
          && decide (score x = maxScoreFold score b (x :: xs))) = true) := by
        simp only [Bool.and_eq_true, decide_eq_true_eq, not_and]
        intro h
        exact absurd h hx
      rw [@List.find?_cons_of_neg _ (fun y => decide (b < score y) && decide (score y = maxScoreFold score b (x :: xs))) x xs hpredF, hmaxc]

theorem foldl_argmin {β : Type} (score : β → Rat) (g : β → String) :
    ∀ (l : List β) (nm : String) (b : Rat),
      l.foldl (fun acc x => if score x < acc.2 then (g x, score x) else acc) (nm, b)
        = match l.find? (fun x =>
              decide (score x < b) && decide (score x = minScoreFold score b l)) with
          | some x => (g x, minScoreFold score b l)
          | none => (nm, b)
  | [], nm, b => rfl
  | x :: xs, nm, b => by
    by_cases hx : score x < b
    · rw [List.foldl_cons]
      simp only [show ((nm, b).2 : Rat) = b from rfl, if_pos hx]
      rw [foldl_argmin score g xs (g x) (score x)]
      have hmaxc : minScoreFold score b (x :: xs) = minScoreFold score (score x) xs := by
        rw [minScoreFold, List.foldl_cons,
          show pyMin b (score x) = score x from by unfold pyMin; rw [if_pos hx]]
        rfl
      by_cases hxM : score x = minScoreFold score (score x) xs
      · have hpred : (decide (score x < b)
            && decide (score x = minScoreFold score b (x :: xs))) = true := by
          rw [hmaxc]
          simp [hx, ← hxM]
        rw [@List.find?_cons_of_pos _ (fun y => decide (score y < b) && decide (score y = minScoreFold score b (x :: xs))) x xs hpred]
        have hnone : xs.find? (fun y => decide (score y < score x)
            && decide (score y = minScoreFold score (score x) xs)) = none := by
          rw [List.find?_eq_none]
          intro y _
          simp only [Bool.and_eq_true, decide_eq_true_eq, not_and]
          intro h1 h2
          rw [← hxM] at h2
          exact absurd h2 (ne_of_lt h1)
        rw [hnone, hmaxc, ← hxM]
      · have hlt : minScoreFold score (score x) xs < score x :=
          lt_of_le_of_ne (min_minScoreFold_init score xs (score x)) (fun h => hxM h.symm)
        have hpredF : ¬((decide (score x < b)
            && decide (score x = minScoreFold score b (x :: xs))) = true) := by
          rw [hmaxc]
          simp only [Bool.and_eq_true, decide_eq_true_eq, not_and]
          intro _ h
          exact hxM h
        rw [@List.find?_cons_of_neg _ (fun y => decide (score y < b) && decide (score y = minScoreFold score b (x :: xs))) x xs hpredF]
        have hcong : xs.find? (fun y => decide (score y < score x)
              && decide (score y = minScoreFold score (score x) xs))
            = xs.find? (fun y => decide (score y < b)
              && decide (score y = minScoreFold score b (x :: xs))) := by
          apply find?_congr
          intro y _
          rw [hmaxc]
          by_cases hyM : score y = minScoreFold score (score x) xs
          · simp [hyM, hlt, lt_trans hlt hx]
          · simp [hyM]
        rw [hcong]
        cases hfind : xs.find? (fun y => decide (score y < b)
            && decide (score y = minScoreFold score b (x :: xs))) with
        | some y => rw [hmaxc]
        | none =>
          exfalso
          rcases minScoreFold_attained score xs (score x) with h | ⟨y, hy, hsy⟩
          · exact hxM h.symm
          · rw [List.find?_eq_none] at hfind
            apply hfind y hy
            simp only [Bool.and_eq_true, decide_eq_true_eq]
            exact ⟨lt_trans (hsy ▸ hlt) hx, by rw [hmaxc, ← hsy]⟩
    · rw [List.foldl_cons]
      simp only [show ((nm, b).2 : Rat) = b from rfl, if_neg hx]
      rw [foldl_argmin score g xs nm b]
      have hmaxc : minScoreFold score b (x :: xs) = minScoreFold score b xs := by
        rw [minScoreFold, List.foldl_cons,
          show pyMin b (score x) = b from by unfold pyMin; rw [if_neg hx]]
        rfl
      have hpredF : ¬((decide (score x < b)
          && decide (score x = minScoreFold score b (x :: xs))) = true) := by
        simp only [Bool.and_eq_true, decide_eq_true_eq, not_and]
        intro h
        exact absurd h hx
      rw [@List.find?_cons_of_neg _ (fun y => decide (score y < b) && decide (score y = minScoreFold score b (x :: xs))) x xs hpredF, hmaxc]

theorem stepPos_eq_step {β : Type} (score : β → Rat) (g : β → String) :
    ∀ (l : List β) (acc : String × Rat), 0 ≤ acc.2 →
      l.foldl (fun acc x => if score x > acc.2 ∧ score x > 0 then (g x, score x) else acc) acc
        = l.foldl (fun acc x => if acc.2 < score x then (g x, score x) else acc) acc
  | [], _, _ => rfl
  | x :: xs, acc, h => by
    rw [List.foldl_cons, List.foldl_cons]
    by_cases hx : acc.2 < score x
    · have hb : score x > acc.2 ∧ score x > 0 := ⟨hx, lt_of_le_of_lt h hx⟩
      rw [if_pos hb, if_pos hx]
      exact stepPos_eq_step score g xs (g x, score x) (le_of_lt hb.2)
    · have hb : ¬(score x > acc.2 ∧ score x > 0) := fun hc => hx hc.1
      rw [if_neg hb, if_neg hx]
      exact stepPos_eq_step score g xs acc h

theorem find_speaker_flat (start end_ : Rat) :
    ∀ (diar : DiarSegments) (acc : String × Rat),
      diar.foldl (fun best p =>
          p.2.foldl (fun b seg =>
            let overlap := pyMin end_ seg.2 - pyMax start seg.1
            if overlap > b.2 ∧ overlap > 0 then (p.1, overlap) else b) best) acc
        = (labeledSegs diar).foldl (fun b q =>
            if ovScore start end_ q.2 > b.2 ∧ ovScore start end_ q.2 > 0
            then (q.1, ovScore start end_ q.2) else b) acc
  | [], _ => rfl
  | (spk, segs) :: rest, acc => by
    rw [List.foldl_cons, find_speaker_flat start end_ rest _]
    have hsplit : labeledSegs ((spk, segs) :: rest)
        = segs.map (fun seg => (spk, seg)) ++ labeledSegs rest := rfl
    rw [hsplit, List.foldl_append, List.foldl_map]
    rfl

/-- Bridge from `find_speaker` to the spec-side attribution policy. -/
theorem find_speaker_eq_attributeSpec (start end_ : Rat) (diar : DiarSegments) :
    find_speaker start end_ diar = attributeSpec start end_ (labeledSegs diar) := by
  unfold find_speaker attributeSpec
  rw [find_speaker_flat start end_ diar ("UNKNOWN", (0 : Rat))]
  rw [stepPos_eq_step (fun q : String × (Rat × Rat) => ovScore start end_ q.2)
    Prod.fst (labeledSegs diar) ("UNKNOWN", (0 : Rat)) (le_refl 0)]
  rw [foldl_argmax (fun q : String × (Rat × Rat) => ovScore start end_ q.2)
    Prod.fst (labeledSegs diar) "UNKNOWN" 0]
  cases hfind : (labeledSegs diar).find? (fun q =>
      decide ((0 : Rat) < ovScore start end_ q.2) && decide (ovScore start end_ q.2
        = maxScoreFold (fun p => ovScore start end_ p.2) 0 (labeledSegs diar))) with
  | some p => simp only [hfind]
  | none => simp only [hfind]

theorem foldl_min_snd_le {α : Type} (cosine : α → α → Rat) (emb : α) :
    ∀ (l : List (String × α)) (acc : String × Rat),
      (l.foldl (fun best p =>
        if cosine emb p.2 < best.2 then (p.1, cosine emb p.2) else best) acc).2 ≤ acc.2
  | [], _ => le_refl _
  | x :: xs, acc => by
    rw [List.foldl_cons]
    by_cases hx : cosine emb x.2 < acc.2
    · rw [if_pos hx]
      exact le_trans (foldl_min_snd_le cosine emb xs (x.1, cosine emb x.2)) (le_of_lt hx)
    · rw [if_neg hx]
      exact foldl_min_snd_le cosine emb xs acc

theorem foldl_min_no_improve {α : Type} (cosine : α → α → Rat) (emb : α) :
    ∀ (l : List (String × α)) (acc : String × Rat),
      (∀ p ∈ l, ¬(cosine emb p.2 < acc.2)) →
      l.foldl (fun best p =>
        if cosine emb p.2 < best.2 then (p.1, cosine emb p.2) else best) acc = acc
  | [], _, _ => rfl
  | x :: xs, acc, h => by
    rw [List.foldl_cons, if_neg (h x (List.mem_cons_self x xs))]
    exact foldl_min_no_improve cosine emb xs acc
      (fun p hp => h p (List.mem_cons_of_mem x hp))

/-! ### Claims -/

/-- C1: for every utterance and every diarization mapping, `find_speaker`
returns the label of the interval with the strictly largest positive overlap
`min(end, e) − max(start, s)` over all intervals of all labels, keeping the
first-seen label on ties, and the sentinel `"UNKNOWN"` when no interval has
positive overlap; on the spec's example intervals `A=[0,5)->"S1"`,
`B=[5,10)->"S2"`, the utterance `[0,4)` goes to `"S1"`, the 1-vs-1 tie `[4,6)`
resolves to the first-seen `"S1"`, and `[20,21)` yields `"UNKNOWN"`. -/
theorem find_speaker_overlap_policy :
    (∀ (start end_ : Rat) (diar : DiarSegments),
        find_speaker start end_ diar = attributeSpec start end_ (labeledSegs diar))
    ∧ find_speaker 0 4 exDiar = "S1"
    ∧ find_speaker 4 6 exDiar = "S1"
    ∧ find_speaker 20 21 exDiar = "UNKNOWN" := by
  refine ⟨find_speaker_eq_attributeSpec, ?_, ?_, ?_⟩ <;>
    norm_num [find_speaker, exDiar, pyMin, pyMax]

/-- C2 (amended): `identify_speaker` behaves as `matchSpec`: the reported
distance is the enrollment minimum clamped from above by the initial best
score 1 (so entries at distance 1 or more are never selected and the true
minimum is not reported when it is 1 or more); among entries at distance
below 1 the first entry achieving the minimum is selected, and the name is
replaced by `"Unknown"` exactly when the reported distance strictly exceeds
the threshold. -/
theorem identify_speaker_matches_matchSpec {α : Type} (cosine : α → α → Rat)
    (speakers : List (String × α)) (emb : α) :
    identify_speaker cosine speakers emb = matchSpec cosine speakers emb := by
  unfold identify_speaker matchSpec
  dsimp only
  rw [foldl_argmin (fun p : String × α => cosine emb p.2) Prod.fst speakers "Unknown" 1]
  rcases lt_or_eq_of_le
      (min_minScoreFold_init (fun p : String × α => cosine emb p.2) speakers 1) with
    hlt | heq
  · rcases minScoreFold_attained (fun p : String × α => cosine emb p.2) speakers 1 with
      h | ⟨y, hy, hsy⟩
    · rw [h] at hlt
      exact absurd hlt (lt_irrefl 1)
    · have hcong : speakers.find? (fun x => decide (cosine emb x.2 < 1)
            && decide (cosine emb x.2
              = minScoreFold (fun p : String × α => cosine emb p.2) 1 speakers))
          = speakers.find? (fun x => decide (cosine emb x.2
              = minScoreFold (fun p : String × α => cosine emb p.2) 1 speakers)) := by
        apply find?_congr
        intro z _
        by_cases hz : cosine emb z.2
            = minScoreFold (fun p : String × α => cosine emb p.2) 1 speakers
        · simp [hz, hlt]
        · simp [hz]
      rw [hcong]
      have hsome : (speakers.find? (fun x => decide (cosine emb x.2
          = minScoreFold (fun p : String × α => cosine emb p.2) 1 speakers))).isSome := by
        rw [List.find?_isSome]
        exact ⟨y, hy, by simp [hsy]⟩
      obtain ⟨p0, hp0⟩ := Option.isSome_iff_exists.mp hsome
      rw [hp0]
  · have hnone : speakers.find? (fun x => decide (cosine emb x.2 < 1)
        && decide (cosine emb x.2
          = minScoreFold (fun p : String × α => cosine emb p.2) 1 speakers)) = none := by
      rw [List.find?_eq_none]
      intro z _
      simp only [Bool.and_eq_true, decide_eq_true_eq, not_and]
      intro h1 h2
      rw [heq] at h2
      exact absurd h1 (by rw [h2]; exact lt_irrefl 1)
    rw [hnone, heq]
    have hTh : THRESHOLD < 1 := by norm_num [THRESHOLD]
    dsimp only
    rw [if_pos hTh, if_pos hTh]

/-- C2 counterexample: with one enrollment entry at cosine distance 2 from the
query, the true minimum distance over the enrollment is 2, yet
`identify_speaker` returns distance 1 (its initial best score) — the reported
distance is not always the true minimum distance. -/
theorem identify_speaker_not_true_minimum :
    identify_speaker (fun _ _ => (2 : Rat)) [("A", (0 : Rat))] 0 = ("Unknown", 1)
    ∧ (fun _ _ => (2 : Rat)) (0 : Rat) (0 : Rat) = 2 ∧ (1 : Rat) ≠ 2 := by
  refine ⟨?_, rfl, by norm_num⟩
  norm_num [identify_speaker, THRESHOLD]

/-- C5 counterexample: a query whose nearest (only) reference lies at distance
exactly `THRESHOLD` is accepted — `identify_speaker` returns the entry's name,
not `"Unknown"`, because the rejection test `best_score > THRESHOLD` is
strict. -/
theorem identify_speaker_at_threshold_accepts :
    identify_speaker (fun _ _ => THRESHOLD) [("A", (0 : Rat))] 0 = ("A", THRESHOLD)
    ∧ "A" ≠ "Unknown" := by
  constructor
  · norm_num [identify_speaker, THRESHOLD]
  · decide

/-- C5 (amended): with a single enrollment entry, a query at distance at most
the threshold (in particular exactly at the threshold) is accepted and returns
the entry's name, while a query at distance strictly above the threshold is
rejected with `"Unknown"`. -/
theorem identify_speaker_threshold_boundary (d d2 : Rat) (name : String)
    (h : d ≤ THRESHOLD) (h2 : THRESHOLD < d2) :
    identify_speaker (fun _ _ => d) [(name, (0 : Rat))] 0 = (name, d)
    ∧ (identify_speaker (fun _ _ => d2) [(name, (0 : Rat))] 0).1 = "Unknown" := by
  have hTh : THRESHOLD < 1 := by norm_num [THRESHOLD]
  constructor
  · have hd1 : d < 1 := lt_of_le_of_lt h hTh
    unfold identify_speaker
    dsimp only [List.foldl_cons, List.foldl_nil]
    rw [if_pos hd1]
    dsimp only
    rw [if_neg (not_lt.mpr h)]
  · by_cases hd : d2 < 1
    · unfold identify_speaker
      dsimp only [List.foldl_cons, List.foldl_nil]
      rw [if_pos hd]
      dsimp only
      rw [if_pos h2]
    · unfold identify_speaker
      dsimp only [List.foldl_cons, List.foldl_nil]
      rw [if_neg hd]
      dsimp only
      rw [if_pos hTh]

/-- C5 witness: the boundary behaviour at the concrete threshold 0.70: distance
exactly 0.70 is accepted, distance 0.71 is rejected. -/
theorem identify_speaker_threshold_boundary_witness :
    ((7 : Rat) / 10 ≤ THRESHOLD ∧ THRESHOLD < (71 : Rat) / 100)
    ∧ identify_speaker (fun _ _ => (7 : Rat) / 10) [("A", (0 : Rat))] 0 = ("A", 7 / 10)
    ∧ (identify_speaker (fun _ _ => (71 : Rat) / 100) [("A", (0 : Rat))] 0).1 = "Unknown" := by
  have h1 : (7 : Rat) / 10 ≤ THRESHOLD := by norm_num [THRESHOLD]
  have h2 : THRESHOLD < (71 : Rat) / 100 := by norm_num [THRESHOLD]
  obtain ⟨a, b⟩ := identify_speaker_threshold_boundary (7 / 10) (71 / 100) "A" h1 h2
  exact ⟨⟨h1, h2⟩, a, b⟩

/-- C10: the distance score returned by `identify_speaker` is at most 1;
whenever every enrollment entry lies at cosine distance 1 or more from the
query — in particular when the enrollment database is empty — the function
returns exactly `("Unknown", 1)`. -/
theorem identify_speaker_distance_capped (α : Type) :
    (∀ (cosine : α → α → Rat) (speakers : List (String × α)) (emb : α),
        (identify_speaker cosine speakers emb).2 ≤ 1)
    ∧ (∀ (cosine : α → α → Rat) (speakers : List (String × α)) (emb : α),
        (∀ p ∈ speakers, 1 ≤ cosine emb p.2) →
          identify_speaker cosine speakers emb = ("Unknown", 1))
    ∧ (∀ (cosine : α → α → Rat) (emb : α),
        identify_speaker cosine ([] : List (String × α)) emb = ("Unknown", 1)) := by
  have hTh : THRESHOLD < 1 := by norm_num [THRESHOLD]
  refine ⟨?_, ?_, ?_⟩
  · intro cosine speakers emb
    unfold identify_speaker
    dsimp only
    have hle := foldl_min_snd_le cosine emb speakers ("Unknown", 1)
    split
    · exact hle
    · exact hle
  · intro cosine speakers emb h
    unfold identify_speaker
    dsimp only
    rw [foldl_min_no_improve cosine emb speakers ("Unknown", 1)
      (fun p hp => not_lt.mpr (h p hp))]
    dsimp only
    rw [if_pos hTh]
  · intro cosine emb
    unfold identify_speaker
    dsimp only [List.foldl_nil]
    rw [if_pos hTh]

/-- C10 witness: a single entry at distance 3/2 (which is at least 1): the
matcher returns `("Unknown", 1)`, not the true distance 3/2. -/
theorem identify_speaker_distance_capped_witness :
    (∀ p ∈ [("A", (0 : Rat))], 1 ≤ (fun _ _ => (3 : Rat) / 2) (0 : Rat) p.2)
    ∧ identify_speaker (fun _ _ => (3 : Rat) / 2) [("A", (0 : Rat))] 0 = ("Unknown", 1) := by
  have h : ∀ p ∈ [("A", (0 : Rat))], 1 ≤ (fun _ _ => (3 : Rat) / 2) (0 : Rat) p.2 := by
    intro p _
    norm_num
  exact ⟨h, (identify_speaker_distance_capped Rat).2.1 _ _ _ h⟩

theorem foldl_append_singleton {α β : Type} (f : α → β) :
    ∀ (l : List α) (acc : List β),
      l.foldl (fun ls t => ls ++ [f t]) acc = acc ++ l.map f
  | [], acc => by simp
  | x :: xs, acc => by
    rw [List.foldl_cons, foldl_append_singleton f xs (acc ++ [f x])]
    simp

/-- C3: the fusion loop emits exactly one output line per utterance, in
transcript order (no utterance dropped or merged); each line's displayed name
is `identity_map.get(label, label)` — the raw attributed label, including the
`"UNKNOWN"` sentinel, is the fallback display name — and each line renders as
`[<start>–<end>] <name>: <text>` with the timestamps formatted to two decimal
places. -/
theorem fuse_one_line_per_utterance :
    ∀ (transcript : List Chunk) (diar : DiarSegments) (nameMap : List (String × String)),
      fuse transcript diar nameMap
        = transcript.map (fun t =>
            "[" ++ fmt2 t.start ++ "–" ++ fmt2 t.end_ ++ "] "
              ++ ((nameMap.lookup (find_speaker t.start t.end_ diar)).getD
                    (find_speaker t.start t.end_ diar))
              ++ ": " ++ t.text)
      ∧ (fuse transcript diar nameMap).length = transcript.length := by
  intro transcript diar nameMap
  have h : fuse transcript diar nameMap = transcript.map (renderLine diar nameMap) := by
    rw [fuse, foldl_append_singleton (renderLine diar nameMap) transcript []]
    rfl
  refine ⟨?_, by rw [h, List.length_map]⟩
  rw [h]
  rfl

theorem accumSamples_spec (audio : List Rat) :
    ∀ (times : List (Rat × Rat)) (samples : List (List Rat)),
      (samples.map List.length).sum ≤ SAMPLE_RATE * 15 →
      ∃ k, k ≤ times.length
        ∧ accumSamples audio times samples = samples ++ (times.take k).map (sliceOf audio)
        ∧ (∀ j, j < k →
            ((samples ++ (times.take j).map (sliceOf audio)).map List.length).sum
              ≤ SAMPLE_RATE * 15)
        ∧ (k < times.length →
            SAMPLE_RATE * 15
              < ((samples ++ (times.take k).map (sliceOf audio)).map List.length).sum)
  | [], samples, h => by
    refine ⟨0, le_refl 0, by simp [accumSamples], ?_, ?_⟩
    · intro j hj
      exact absurd hj (Nat.not_lt_zero j)
    · intro h0
      exact absurd h0 (Nat.not_lt_zero 0)
  | iv :: rest, samples, h => by
    by_cases hcap :
        SAMPLE_RATE * 15 < (((samples ++ [sliceOf audio iv]).map List.length).sum)
    · refine ⟨1, Nat.succ_le_succ (Nat.zero_le _), ?_, ?_, ?_⟩
      · rw [accumSamples, if_pos hcap]
        simp
      · intro j hj
        have hj0 : j = 0 := Nat.lt_one_iff.mp hj
        subst hj0
        simpa using h
      · intro _
        simpa using hcap
    · have h2 : ((samples ++ [sliceOf audio iv]).map List.length).sum
          ≤ SAMPLE_RATE * 15 := not_lt.mp hcap
      obtain ⟨k, hk, heq, hpre, hstop⟩ :=
        accumSamples_spec audio rest (samples ++ [sliceOf audio iv]) h2
      refine ⟨k + 1, Nat.succ_le_succ hk, ?_, ?_, ?_⟩
      · rw [accumSamples, if_neg hcap, heq]
        simp [List.take_succ_cons]
      · intro j hj
        cases j with
        | zero => simpa using h
        | succ j' =>
          have hj' := hpre j' (Nat.lt_of_succ_lt_succ hj)
          rw [List.take_succ_cons]
          simpa [List.append_assoc] using hj'
      · intro hlt
        have hs := hstop (Nat.lt_of_succ_lt_succ hlt)
        rw [List.take_succ_cons]
        simpa [List.append_assoc] using hs

/-- C4: for every label's interval list, accumulation walks the intervals in
stored order and keeps exactly the slices of a prefix; it stops after the
first interval whose appended slice makes the cumulative sample count strictly
exceed the 15-second cap (the check runs after the append): every proper
sub-prefix is within the cap, stopping before the end implies the cap was
strictly exceeded, and whenever the cap is exceeded the concatenated clip
still holds at least the cap many samples (inclusive overshoot, never
truncated below the cap). -/
theorem accumSamples_cap (audio : List Rat) (times : List (Rat × Rat)) :
    ∃ k, k ≤ times.length
      ∧ accumSamples audio times [] = (times.take k).map (sliceOf audio)
      ∧ (∀ j, j < k →
          (((times.take j).map (sliceOf audio)).map List.length).sum ≤ SAMPLE_RATE * 15)
      ∧ (k < times.length →
          SAMPLE_RATE * 15 < (((times.take k).map (sliceOf audio)).map List.length).sum)
      ∧ (accumSamples audio times []).flatten.length
          = (((times.take k).map (sliceOf audio)).map List.length).sum
      ∧ (SAMPLE_RATE * 15 < (((times.take k).map (sliceOf audio)).map List.length).sum →
          SAMPLE_RATE * 15 ≤ (accumSamples audio times []).flatten.length) := by
  obtain ⟨k, hk, heq, hpre, hstop⟩ := accumSamples_spec audio times [] (by simp)
  have hflat : (accumSamples audio times []).flatten.length
      = (((times.take k).map (sliceOf audio)).map List.length).sum := by
    rw [heq]
    simp [List.length_flatten]
  refine ⟨k, hk, by simpa using heq, ?_, ?_, hflat, ?_⟩
  · intro j hj
    simpa using hpre j hj
  · intro hlt
    simpa using hstop hlt
  · intro hcap
    rw [hflat]
    exact le_of_lt hcap

theorem buildGo_cons_of_fresh (identify : List Rat → String × Rat) (audio : List Rat) :
    ∀ (rest : DiarSegments) (spk n : String) (m : List (String × String)),
      spk ∉ rest.map Prod.fst →
      build_speaker_name_mapGo identify audio rest ((spk, n) :: m)
        = (spk, n) :: build_speaker_name_mapGo identify audio rest m
  | [], _, _, _, _ => rfl
  | (k, times) :: rs, spk, n, m, h => by
    simp only [List.map_cons, List.mem_cons, not_or] at h
    obtain ⟨h1, h2⟩ := h
    rw [build_speaker_name_mapGo, build_speaker_name_mapGo]
    rw [show dictSet ((spk, n) :: m) k
        (identify ((accumSamples audio times []).flatten)).1
      = (spk, n) :: dictSet m k (identify ((accumSamples audio times []).flatten)).1 from by
        simp [dictSet, h1]]
    exact buildGo_cons_of_fresh identify audio rs spk n _ h2

/-- C6 (amended): a label whose intervals accumulate to zero samples does not
crash concatenation — the empty buffer is handed to the identification
capability with no special-case handling (there is no `EmptyVoiceSampleError`
path), the label resolves to whatever name that call returns rather than a
forced `"Unknown"`, and resolution continues independently for the remaining
labels. -/
theorem build_map_empty_clip (identify : List Rat → String × Rat) (audio : List Rat)
    (spk : String) (times : List (Rat × Rat)) (rest : DiarSegments)
    (h1 : (accumSamples audio times []).flatten = [])
    (h2 : spk ∉ rest.map Prod.fst) :
    build_speaker_name_map identify audio ((spk, times) :: rest)
      = (spk, (identify []).1) :: build_speaker_name_map identify audio rest := by
  unfold build_speaker_name_map
  rw [build_speaker_name_mapGo, h1]
  exact buildGo_cons_of_fresh identify audio rest spk _ [] h2

/-- C6 witness: a degenerate interval `[0, 0)` accumulates zero samples; with a
capability answering `("Bob", 0)` the label resolves to `"Bob"` and the later
label is still processed. -/
theorem build_map_empty_clip_witness :
    (accumSamples [] [((0 : Rat), (0 : Rat))] []).flatten = ([] : List Rat)
    ∧ ("S1" ∉ ([("S2", [((1 : Rat), (2 : Rat))])] : DiarSegments).map Prod.fst)
    ∧ build_speaker_name_map (fun _ => ("Bob", 0)) []
          [("S1", [(0, 0)]), ("S2", [(1, 2)])]
        = ("S1", "Bob") :: build_speaker_name_map (fun _ => ("Bob", 0)) [] [("S2", [(1, 2)])] := by
  have h1 : (accumSamples [] [((0 : Rat), (0 : Rat))] []).flatten = ([] : List Rat) := by
    norm_num [accumSamples, sliceOf, pySlice, pyInt, SAMPLE_RATE]
  have h2 : "S1" ∉ ([("S2", [((1 : Rat), (2 : Rat))])] : DiarSegments).map Prod.fst := by
    simp
  exact ⟨h1, h2, build_map_empty_clip (fun _ => ("Bob", 0)) [] "S1" _ _ h1 h2⟩

/-- C6 counterexample: when the identification capability names the empty clip
`"Alice"` (as `identify_speaker` may, depending on encoder and enrollment), the
zero-sample label resolves to `"Alice"`, not `"Unknown"`, and no error is
raised: the claimed `EmptyVoiceSampleError` handling does not exist in the
code. -/
theorem build_map_empty_clip_not_unknown :
    build_speaker_name_map (fun _ => ("Alice", 0)) [] [("S1", [(0, 0)])]
      = [("S1", "Alice")]
    ∧ "Alice" ≠ "Unknown" := by
  constructor
  · norm_num [build_speaker_name_map, build_speaker_name_mapGo, accumSamples, sliceOf,
      pySlice, pyInt, dictSet, SAMPLE_RATE]
  · decide

theorem addSeg_ne_nil : ∀ (segs : DiarSegments) (spk : String) (iv : Rat × Rat),
    addSeg segs spk iv ≠ []
  | [], _, _ => by simp [addSeg]
  | (k, vs) :: rest, spk, iv => by
    unfold addSeg
    split <;> simp

theorem rttmGo_isOk_iff : ∀ (lines : List String) (segs : DiarSegments),
    (load_rttmGo lines segs).isOk = false
      ↔ ((∃ l ∈ lines, badFloatRec l = true) ∨ (segs = [] ∧ lines.filter validRec = []))
  | [], segs => by
    by_cases hs : segs = [] <;> simp [load_rttmGo, hs, Except.isOk, Except.toBool]
  | line :: rest, segs => by
    by_cases hlen : (pySplit (pyStrip line.data)).length < 8
    · have hval : validRec line = false := by
        simp only [validRec, decide_eq_false_iff_not, not_le]
        exact hlen
      have hbf : badFloatRec line = false := by
        simp [badFloatRec, hval]
      have hgo : load_rttmGo (line :: rest) segs = load_rttmGo rest segs := by
        simp [load_rttmGo, hlen]
      rw [hgo, rttmGo_isOk_iff rest segs]
      simp [hbf, List.filter_cons, hval]
    · have hval : validRec line = true := by
        simp only [validRec, decide_eq_true_eq]
        exact not_lt.mp hlen
      cases hf3 : pyFloat (fieldAt (pySplit (pyStrip line.data)) 3) with
      | none =>
        have hgo : load_rttmGo (line :: rest) segs = .error "ValueError" := by
          simp [load_rttmGo, hlen, hf3]
        rw [hgo]
        exact iff_of_true rfl
          (Or.inl ⟨line, List.mem_cons_self line rest, by simp [badFloatRec, hval, hf3]⟩)
      | some start =>
        cases hf4 : pyFloat (fieldAt (pySplit (pyStrip line.data)) 4) with
        | none =>
          have hgo : load_rttmGo (line :: rest) segs = .error "ValueError" := by
            simp [load_rttmGo, hlen, hf3, hf4]
          rw [hgo]
          exact iff_of_true rfl
            (Or.inl ⟨line, List.mem_cons_self line rest, by simp [badFloatRec, hval, hf3, hf4]⟩)
        | some dur =>
          have hbf : badFloatRec line = false := by
            simp [badFloatRec, hval, hf3, hf4]
          have hgo : load_rttmGo (line :: rest) segs
              = load_rttmGo rest
                  (addSeg segs (String.mk (fieldAt (pySplit (pyStrip line.data)) 7))
                    (start, start + dur)) := by
            simp [load_rttmGo, hlen, hf3, hf4]
          rw [hgo, rttmGo_isOk_iff rest _]
          simp [addSeg_ne_nil, hbf, List.filter_cons, hval]

theorem transcriptGo_isOk_iff : ∀ (lines : List String) (chunks : List Chunk),
    (load_transcriptGo lines chunks).isOk = false
      ↔ (chunks = [] ∧ ∀ l ∈ lines, parseTranscriptLine l = none)
  | [], chunks => by
    by_cases hs : chunks = [] <;> simp [load_transcriptGo, hs, Except.isOk, Except.toBool]
  | line :: rest, chunks => by
    cases hm : parseTranscriptLine line with
    | some v =>
      obtain ⟨v1, v2, txt⟩ := v
      have hgo : load_transcriptGo (line :: rest) chunks
          = load_transcriptGo rest (chunks ++ [⟨v1, v2, txt⟩]) := by
        simp [load_transcriptGo, hm]
      rw [hgo, transcriptGo_isOk_iff rest _]
      constructor
      · intro ⟨habs, _⟩
        exact absurd habs (by simp)
      · intro ⟨_, hall⟩
        exact absurd (hall line (List.mem_cons_self line rest)) (by simp [hm])
    | none =>
      have hgo : load_transcriptGo (line :: rest) chunks = load_transcriptGo rest chunks := by
        simp [load_transcriptGo, hm]
      rw [hgo, transcriptGo_isOk_iff rest chunks]
      simp [hm]

/-- C7 (amended): `load_rttm` aborts with a nonzero exit iff no line has the
required 8 fields or some 8-field line has a start/duration field on which
`float(...)` raises; `load_transcript` aborts iff no line matches the
transcript pattern; the pipeline preflight aborts iff one of the parsers
aborts or the loaded audio's sample rate differs from the assumed 16 kHz; in
every other case these steps complete. -/
theorem pipeline_abort_conditions :
    ∀ (r t : List String) (sr : Nat),
      ((load_rttm r).isOk = false
        ↔ ((r.filter validRec).length = 0 ∨ ∃ l ∈ r, badFloatRec l = true))
      ∧ ((load_transcript t).isOk = false ↔ ∀ l ∈ t, parseTranscriptLine l = none)
      ∧ ((pipelinePreflight r t sr).isOk = false
        ↔ ((load_rttm r).isOk = false ∨ (load_transcript t).isOk = false
            ∨ sr ≠ SAMPLE_RATE)) := by
  intro r t sr
  refine ⟨?_, ?_, ?_⟩
  · rw [load_rttm, rttmGo_isOk_iff r []]
    rw [List.length_eq_zero]
    constructor
    · rintro (h | ⟨_, h⟩) <;> [exact Or.inr h; exact Or.inl h]
    · rintro (h | h) <;> [exact Or.inr ⟨rfl, h⟩; exact Or.inl h]
  · rw [load_transcript, transcriptGo_isOk_iff t []]
    simp
  · cases hr : load_rttm r with
    | error e => simp [pipelinePreflight, hr, Except.isOk, Except.toBool]
    | ok d =>
      cases ht : load_transcript t with
      | error e => simp [pipelinePreflight, hr, ht, Except.isOk, Except.toBool]
      | ok c =>
        by_cases hsr : sr = SAMPLE_RATE <;>
          simp [pipelinePreflight, hr, ht, hsr, Except.isOk, Except.toBool]

/-- C7 counterexample: the diarization line `"a b c x 1.0 f g S1"` has the
required 8 fields — one valid record in the claim's sense, so the claim says
parsing must not abort — yet `load_rttm` aborts because `float("x")` raises. -/
theorem load_rttm_aborts_on_unparseable_field :
    (["a b c x 1.0 f g S1"].filter validRec).length = 1
    ∧ (load_rttm ["a b c x 1.0 f g S1"]).isOk = false := by
  constructor
  · norm_num +decide [validRec, pySplit, pySplitGo, pyStrip, pyIsSpace, List.filter_cons]
  · norm_num +decide [load_rttm, load_rttmGo, fieldAt, pySplit, pySplitGo, pyStrip, pyIsSpace,
      pyFloat, pyFloatMag, Except.isOk, Except.toBool, Char.isDigit]

theorem numTok_nonneg {cs : List Char} {v : Rat} {rest : List Char}
    (h : numTok cs = some (v, rest)) : 0 ≤ v := by
  unfold numTok at h
  split at h
  · exact Option.noConfusion h
  · split at h
    · split at h <;>
        · simp only [Option.some.injEq, Prod.mk.injEq] at h
          obtain ⟨hv, -⟩ := h
          rw [← hv]
          positivity
    · simp only [Option.some.injEq, Prod.mk.injEq] at h
      obtain ⟨hv, -⟩ := h
      rw [← hv]
      positivity

theorem dropWhile_head_not {α : Type} {p : α → Bool} :
    ∀ {l : List α} {c : α} {rest : List α}, l.dropWhile p = c :: rest → p c = false
  | [], c, rest => fun h => absurd h (by simp)
  | x :: xs, c, rest => by
    intro h
    rw [List.dropWhile_cons] at h
    by_cases hx : p x = true
    · rw [if_pos hx] at h
      exact dropWhile_head_not h
    · rw [if_neg hx] at h
      injection h with h1 _
      subst h1
      exact Bool.eq_false_iff.mpr hx

theorem pyStrip_ne_nil {c : Char} {t : List Char} (hc : pyIsSpace c = false) :
    pyStrip (c :: t) ≠ [] := by
  unfold pyStrip
  rw [List.dropWhile_cons, if_neg (by simp [hc])]
  intro h
  rw [List.reverse_eq_nil_iff, List.dropWhile_eq_nil_iff] at h
  have hcs := h c (by simp)
  rw [hc] at hcs
  exact Bool.false_ne_true hcs

theorem pyStrip_takeWhile_skipSpaces (q : Char → Bool) (r : List Char)
    (hne : (skipSpaces r).takeWhile q ≠ []) :
    pyStrip ((skipSpaces r).takeWhile q) ≠ [] := by
  cases hr : skipSpaces r with
  | nil =>
    rw [hr] at hne
    simp at hne
  | cons c0 r3 =>
    have hc0 : pyIsSpace c0 = false := dropWhile_head_not hr
    rw [hr] at hne
    rw [List.takeWhile_cons] at hne ⊢
    by_cases hq : q c0 = true
    · rw [if_pos hq]
      exact pyStrip_ne_nil hc0
    · rw [if_neg hq] at hne
      exact absurd rfl hne

theorem afterArrow_prop {cs : List Char} {v : Rat} {txt : String}
    (h : afterArrow cs = some (v, txt)) : 0 ≤ v ∧ pyStrip txt.data ≠ [] := by
  unfold afterArrow at h
  cases hnt : numTok (skipSpaces cs) with
  | none =>
    rw [hnt] at h
    exact Option.noConfusion h
  | some pr =>
    obtain ⟨v2, r1⟩ := pr
    rw [hnt] at h
    dsimp only at h
    cases hss : skipSpaces r1 with
    | nil =>
      rw [hss] at h
      exact Option.noConfusion h
    | cons c r2 =>
      rw [hss] at h
      dsimp only at h
      by_cases hc : c = ']'
      · rw [if_pos hc] at h
        by_cases hne : (skipSpaces r2).takeWhile (fun ch => ch ≠ '\n') = []
        · rw [if_pos hne] at h
          exact Option.noConfusion h
        · rw [if_neg hne] at h
          simp only [Option.some.injEq, Prod.mk.injEq] at h
          obtain ⟨hv, htxt⟩ := h
          subst hv
          subst htxt
          exact ⟨numTok_nonneg hnt, pyStrip_takeWhile_skipSpaces _ _ hne⟩
      · rw [if_neg hc] at h
        exact Option.noConfusion h

theorem tryArrow_prop {a cs : List Char} {k : Option (Rat × String)} {v : Rat} {txt : String}
    (hk : ∀ (v2 : Rat) (t2 : String), k = some (v2, t2) → 0 ≤ v2 ∧ pyStrip t2.data ≠ [])
    (h : tryArrow a cs k = some (v, txt)) : 0 ≤ v ∧ pyStrip txt.data ≠ [] := by
  unfold tryArrow at h
  cases hsp : stripPrefixChars a cs with
  | none =>
    rw [hsp] at h
    exact hk v txt h
  | some rest =>
    rw [hsp] at h
    dsimp only at h
    cases haa : afterArrow rest with
    | some r =>
      obtain ⟨v2, t2⟩ := r
      rw [haa] at h
      simp only [Option.some.injEq, Prod.mk.injEq] at h
      obtain ⟨hv, htxt⟩ := h
      subst hv
      subst htxt
      exact afterArrow_prop haa
    | none =>
      rw [haa] at h
      exact hk v txt h

theorem matchArrowThen_prop {cs : List Char} {v : Rat} {txt : String}
    (h : matchArrowThen cs = some (v, txt)) : 0 ≤ v ∧ pyStrip txt.data ≠ [] := by
  unfold matchArrowThen at h
  refine tryArrow_prop (fun v2 t2 h2 =>
    tryArrow_prop (fun v3 t3 h3 =>
      tryArrow_prop (fun v4 t4 h4 =>
        tryArrow_prop (fun v5 t5 h5 => absurd h5 (by simp)) h4) h3) h2) h

theorem matchLine_prop {cs : List Char} {v1 v2 : Rat} {txt : String}
    (h : matchLine cs = some (v1, v2, txt)) :
    0 ≤ v1 ∧ 0 ≤ v2 ∧ pyStrip txt.data ≠ [] := by
  cases cs with
  | nil => exact Option.noConfusion h
  | cons c r0 =>
    unfold matchLine at h
    dsimp only at h
    by_cases hc : c = '['
    · rw [if_pos hc] at h
      cases hnt : numTok (skipSpaces r0) with
      | none =>
        rw [hnt] at h
        exact Option.noConfusion h
      | some pr =>
        obtain ⟨v1x, r1⟩ := pr
        rw [hnt] at h
        dsimp only at h
        cases hma : matchArrowThen (skipSpaces r1) with
        | none =>
          rw [hma] at h
          exact Option.noConfusion h
        | some pr2 =>
          obtain ⟨v2x, txtx⟩ := pr2
          rw [hma] at h
          simp only [Option.some.injEq, Prod.mk.injEq] at h
          obtain ⟨h1, h2, h3⟩ := h
          subst h1
          subst h2
          subst h3
          exact ⟨numTok_nonneg hnt, (matchArrowThen_prop hma).1, (matchArrowThen_prop hma).2⟩
    · rw [if_neg hc] at h
      exact Option.noConfusion h

theorem transcriptGo_inv :
    ∀ (lines : List String) (chunks out : List Chunk),
      (∀ c ∈ chunks, 0 ≤ c.start ∧ 0 ≤ c.end_ ∧ pyStrip c.text.data ≠ []) →
      load_transcriptGo lines chunks = .ok out →
      ∀ c ∈ out, 0 ≤ c.start ∧ 0 ≤ c.end_ ∧ pyStrip c.text.data ≠ []
  | [], chunks, out, hinv, h => by
    unfold load_transcriptGo at h
    split at h
    · exact absurd h (by simp)
    · simp only [Except.ok.injEq] at h
      subst h
      exact hinv
  | line :: rest, chunks, out, hinv, h => by
    unfold load_transcriptGo at h
    cases hm : parseTranscriptLine line with
    | some pr =>
      obtain ⟨v1, v2, txt⟩ := pr
      rw [hm] at h
      have hm2 : matchLine (pyStrip line.data) = some (v1, v2, txt) := hm
      refine transcriptGo_inv rest _ out ?_ h
      intro c hc
      rcases List.mem_append.mp hc with hc | hc
      · exact hinv c hc
      · rw [List.mem_singleton] at hc
        subst hc
        exact matchLine_prop hm2
    | none =>
      rw [hm] at h
      exact transcriptGo_inv rest chunks out hinv h

/-- C9 (amended): every utterance the transcript parser returns has
nonnegative start and end timestamps and text that is non-empty after trimming
whitespace; neither parser enforces `end ≥ start` (nor, for diarization
intervals, `end ≥ start ≥ 0`). -/
theorem transcript_utterance_invariants (lines : List String) (chunks : List Chunk)
    (h : load_transcript lines = .ok chunks) :
    ∀ c ∈ chunks, 0 ≤ c.start ∧ 0 ≤ c.end_ ∧ pyStrip c.text.data ≠ [] :=
  transcriptGo_inv lines [] chunks (by simp) h

/-- C9 witness: the line `"[1-2] hi"` parses, and the resulting utterance
satisfies the amended invariants. -/
theorem transcript_utterance_invariants_witness :
    load_transcript ["[1-2] hi"] = .ok [⟨1, 2, "hi"⟩]
    ∧ (0 ≤ (⟨1, 2, "hi"⟩ : Chunk).start ∧ 0 ≤ (⟨1, 2, "hi"⟩ : Chunk).end_
        ∧ pyStrip (⟨1, 2, "hi"⟩ : Chunk).text.data ≠ []) := by
  have h : load_transcript ["[1-2] hi"] = .ok [⟨1, 2, "hi"⟩] := by
    norm_num +decide [load_transcript, load_transcriptGo, parseTranscriptLine, matchLine,
      pyStrip, pyIsSpace, skipSpaces, numTok, matchArrowThen, tryArrow, stripPrefixChars,
      afterArrow, digitsToNat, digitVal_1, digitVal_2, Char.isDigit]
  exact ⟨h, transcript_utterance_invariants _ _ h ⟨1, 2, "hi"⟩ (by simp)⟩

/-- C9 counterexample: the transcript parser accepts `"[5-2] hi"`, producing an
utterance with `end < start`, and the diarization parser accepts a negative
start and negative duration, producing an interval with `start < 0` and
`end < start` — the claimed invariants `end ≥ start` (transcript) and
`end ≥ start ≥ 0` (diarization) are not enforced. -/
theorem parser_invariants_not_enforced :
    load_transcript ["[5-2] hi"] = .ok [⟨5, 2, "hi"⟩]
    ∧ ¬((5 : Rat) ≤ 2)
    ∧ load_rttm ["a b c -1.0 -2.0 f g S1"] = .ok [("S1", [(-1, -3)])]
    ∧ ((-1 : Rat) < 0 ∧ (-3 : Rat) < -1) := by
  refine ⟨?_, by norm_num, ?_, by norm_num⟩
  · norm_num +decide [load_transcript, load_transcriptGo, parseTranscriptLine, matchLine,
      pyStrip, pyIsSpace, skipSpaces, numTok, matchArrowThen, tryArrow, stripPrefixChars,
      afterArrow, digitsToNat, digitVal_2, digitVal_5, Char.isDigit]
  · norm_num +decide [load_rttm, load_rttmGo, fieldAt, addSeg, pySplit, pySplitGo, pyStrip,
      pyIsSpace, pyFloat, pyFloatMag, digitsToNat, digitVal_0, digitVal_1, digitVal_2,
      Char.isDigit]

theorem pyIsSpace_cases {c : Char} (h : pyIsSpace c = true) :
    c = ' ' ∨ c = '\t' ∨ c = '\n' ∨ c = '\r' ∨ c = '\x0b' ∨ c = '\x0c' := by
  unfold pyIsSpace at h
  simp only [Bool.or_eq_true, decide_eq_true_eq] at h
  tauto

theorem space_not_digit_dot_gt {c : Char} (h : pyIsSpace c = true) :
    c.isDigit = false ∧ c ≠ '.' ∧ c ≠ '>' := by
  rcases pyIsSpace_cases h with rfl | rfl | rfl | rfl | rfl | rfl <;> refine ⟨by decide, by decide, by decide⟩

theorem digit_not_space_dot_gt {c : Char} (h : c.isDigit = true) :
    pyIsSpace c = false ∧ c ≠ '.' ∧ c ≠ '>' := by
  refine ⟨?_, ?_, ?_⟩
  · by_contra hs
    rw [Bool.not_eq_false] at hs
    rcases pyIsSpace_cases hs with rfl | rfl | rfl | rfl | rfl | rfl <;> exact absurd h (by decide)
  · intro hc
    subst hc
    exact absurd h (by decide)
  · intro hc
    subst hc
    exact absurd h (by decide)

theorem takeWhile_append_stop {α : Type} {p : α → Bool} :
    ∀ (l rest : List α), (∀ c ∈ l, p c = true) →
      (∀ c, rest.head? = some c → p c = false) →
      (l ++ rest).takeWhile p = l
  | [], rest, _, hr => by
    cases rest with
    | nil => rfl
    | cons c r =>
      simp only [List.nil_append, List.takeWhile_cons, hr c rfl]
      simp
  | x :: xs, rest, hl, hr => by
    rw [List.cons_append, List.takeWhile_cons, if_pos (hl x (List.mem_cons_self x xs))]
    rw [takeWhile_append_stop xs rest (fun c hc => hl c (List.mem_cons_of_mem x hc)) hr]

theorem dropWhile_append_stop {α : Type} {p : α → Bool} :
    ∀ (l rest : List α), (∀ c ∈ l, p c = true) →
      (∀ c, rest.head? = some c → p c = false) →
      (l ++ rest).dropWhile p = rest
  | [], rest, _, hr => by
    cases rest with
    | nil => rfl
    | cons c r =>
      simp only [List.nil_append, List.dropWhile_cons, hr c rfl]
      simp
  | x :: xs, rest, hl, hr => by
    rw [List.cons_append, List.dropWhile_cons, if_pos (hl x (List.mem_cons_self x xs))]
    exact dropWhile_append_stop xs rest (fun c hc => hl c (List.mem_cons_of_mem x hc)) hr

theorem skipSpaces_stop (w rest : List Char) (hw : ∀ c ∈ w, pyIsSpace c = true)
    (hr : ∀ c, rest.head? = some c → pyIsSpace c = false) :
    skipSpaces (w ++ rest) = rest := by
  unfold skipSpaces
  exact dropWhile_append_stop w rest hw hr

theorem numTok_numLit (i f rest : List Char) (d : Bool)
    (hi : i ≠ []) (hid : ∀ c ∈ i, c.isDigit = true) (hfd : ∀ c ∈ f, c.isDigit = true)
    (hrest : ∀ c, rest.head? = some c → (c.isDigit = false ∧ c ≠ '.')) :
    numTok (numLit i d f ++ rest) = some (numVal i d f, rest) := by
  cases d with
  | false =>
    have hlit : numLit i false f ++ rest = i ++ rest := by
      simp [numLit]
    rw [hlit]
    unfold numTok
    rw [takeWhile_append_stop i rest hid (fun c hc => (hrest c hc).1)]
    rw [dropWhile_append_stop i rest hid (fun c hc => (hrest c hc).1)]
    rw [if_neg hi]
    cases rest with
    | nil => simp [numVal]
    | cons c r2 =>
      dsimp only
      rw [if_neg (hrest c rfl).2]
      simp [numVal]
  | true =>
    have hlit : numLit i true f ++ rest = i ++ ('.' :: (f ++ rest)) := by
      simp [numLit]
    rw [hlit]
    unfold numTok
    have hstopdot : ∀ c, ('.' :: (f ++ rest)).head? = some c → c.isDigit = false := by
      intro c hc
      simp only [List.head?_cons, Option.some.injEq] at hc
      subst hc
      decide
    rw [takeWhile_append_stop i _ hid hstopdot]
    rw [dropWhile_append_stop i _ hid hstopdot]
    rw [if_neg hi]
    dsimp only
    rw [if_pos rfl]
    rw [takeWhile_append_stop f rest hfd (fun c hc => (hrest c hc).1)]
    rw [dropWhile_append_stop f rest hfd (fun c hc => (hrest c hc).1)]
    simp [numVal]

theorem afterArrow_gt (rest : List Char) : afterArrow ('>' :: rest) = none := by
  have h1 : skipSpaces ('>' :: rest) = '>' :: rest := by
    unfold skipSpaces
    rw [List.dropWhile_cons, if_neg (by decide)]
  have ht : ('>' :: rest).takeWhile Char.isDigit = [] := by
    rw [List.takeWhile_cons, if_neg (by decide)]
  have h2 : numTok ('>' :: rest) = none := by
    unfold numTok
    rw [if_pos ht]
  unfold afterArrow
  rw [h1, h2]

theorem matchArrowThen_arrow (a rest : List Char) (ha : a ∈ ARROWS)
    (hr : ∀ c, rest.head? = some c → c ≠ '>') :
    matchArrowThen (a ++ rest) = afterArrow rest := by
  simp only [ARROWS, List.mem_cons, List.not_mem_nil, or_false] at ha
  rcases ha with rfl | rfl | rfl | rfl
  · cases haa : afterArrow rest with
    | some r => simp +decide [matchArrowThen, tryArrow, stripPrefixChars, haa]
    | none => simp +decide [matchArrowThen, tryArrow, stripPrefixChars, haa]
  · cases haa : afterArrow rest with
    | some r => simp +decide [matchArrowThen, tryArrow, stripPrefixChars, haa, afterArrow_gt]
    | none => simp +decide [matchArrowThen, tryArrow, stripPrefixChars, haa, afterArrow_gt]
  · cases haa : afterArrow rest with
    | some r => simp +decide [matchArrowThen, tryArrow, stripPrefixChars, haa]
    | none => simp +decide [matchArrowThen, tryArrow, stripPrefixChars, haa]
  · cases rest with
    | nil =>
      simp +decide [matchArrowThen, tryArrow, stripPrefixChars, afterArrow, numTok, skipSpaces]
    | cons c r2 =>
      have hc : c ≠ '>' := hr c rfl
      cases haa : afterArrow (c :: r2) with
      | some r => simp +decide [matchArrowThen, tryArrow, stripPrefixChars, haa, hc]
      | none => simp +decide [matchArrowThen, tryArrow, stripPrefixChars, haa, hc]

theorem arrow_head_facts {a : List Char} (ha : a ∈ ARROWS) :
    a ≠ [] ∧ ∀ c, a.head? = some c →
      (pyIsSpace c = false ∧ c.isDigit = false ∧ c ≠ '.' ∧ c ≠ '>') := by
  simp only [ARROWS, List.mem_cons, List.not_mem_nil, or_false] at ha
  rcases ha with rfl | rfl | rfl | rfl <;>
    exact ⟨by simp, fun c hc => by
      simp only [List.head?_cons, Option.some.injEq] at hc
      subst hc
      refine ⟨by decide, by decide, by decide, by decide⟩⟩

theorem head?_append_left {α : Type} {l : List α} (r : List α) (h : l ≠ []) :
    (l ++ r).head? = l.head? := by
  cases l with
  | nil => exact absurd rfl h
  | cons x xs => rfl

theorem afterArrow_parts (w3 i2 f2 w4 s : List Char) (d2 : Bool)
    (hw3 : ∀ c ∈ w3, pyIsSpace c = true) (hw4 : ∀ c ∈ w4, pyIsSpace c = true)
    (hi2 : i2 ≠ []) (hi2d : ∀ c ∈ i2, c.isDigit = true) (hf2 : ∀ c ∈ f2, c.isDigit = true) :
    afterArrow (w3 ++ (numLit i2 d2 f2 ++ (w4 ++ ']' :: s)))
      = (if (skipSpaces s).takeWhile (fun ch => ch ≠ '\n') = [] then none
         else some (numVal i2 d2 f2,
           String.mk ((skipSpaces s).takeWhile (fun ch => ch ≠ '\n')))) := by
  have hhead : ∀ c, (numLit i2 d2 f2 ++ (w4 ++ ']' :: s)).head? = some c →
      pyIsSpace c = false := by
    intro c hc
    obtain ⟨c2, i2t, rfl⟩ := List.exists_cons_of_ne_nil hi2
    have : (numLit (c2 :: i2t) d2 f2 ++ (w4 ++ ']' :: s)).head? = some c2 := rfl
    rw [this] at hc
    injection hc with hc
    subst hc
    exact (digit_not_space_dot_gt (hi2d c2 (List.mem_cons_self c2 i2t))).1
  have h1 : skipSpaces (w3 ++ (numLit i2 d2 f2 ++ (w4 ++ ']' :: s)))
      = numLit i2 d2 f2 ++ (w4 ++ ']' :: s) := skipSpaces_stop _ _ hw3 hhead
  have hbound : ∀ c, (w4 ++ ']' :: s).head? = some c → (c.isDigit = false ∧ c ≠ '.') := by
    intro c hc
    cases w4 with
    | nil =>
      simp only [List.nil_append, List.head?_cons, Option.some.injEq] at hc
      subst hc
      exact ⟨by decide, by decide⟩
    | cons c4 w4t =>
      simp only [List.cons_append, List.head?_cons, Option.some.injEq] at hc
      subst hc
      have hs := space_not_digit_dot_gt (hw4 c4 (List.mem_cons_self c4 w4t))
      exact ⟨hs.1, hs.2.1⟩
  unfold afterArrow
  rw [h1, numTok_numLit i2 f2 (w4 ++ ']' :: s) d2 hi2 hi2d hf2 hbound]
  dsimp only
  rw [skipSpaces_stop w4 (']' :: s) hw4 (fun c hc => by
    simp only [List.head?_cons, Option.some.injEq] at hc
    subst hc
    decide)]
  dsimp only
  rw [if_pos rfl]

theorem dropWhile_append_cases {α : Type} [DecidableEq α] {p : α → Bool} : ∀ (xs l : List α),
    (xs ++ l).dropWhile p
      = if xs.dropWhile p = [] then l.dropWhile p else xs.dropWhile p ++ l
  | [], l => by simp
  | x :: xs, l => by
    by_cases hx : p x = true
    · rw [List.cons_append, List.dropWhile_cons, if_pos hx, dropWhile_append_cases xs l,
        List.dropWhile_cons, if_pos hx]
    · have hLHS : ((x :: xs) ++ l).dropWhile p = x :: (xs ++ l) := by
        rw [List.cons_append, List.dropWhile_cons, if_neg hx]
      have hxs : (x :: xs).dropWhile p = x :: xs := by
        rw [List.dropWhile_cons, if_neg hx]
      rw [hLHS, hxs, if_neg (by simp)]
      rfl

theorem dropTrailing_append (u tail : List Char) :
    ((u ++ ']' :: tail).reverse.dropWhile pyIsSpace).reverse
      = u ++ ']' :: ((tail.reverse.dropWhile pyIsSpace).reverse) := by
  rw [List.reverse_append, List.reverse_cons, List.append_assoc, List.singleton_append]
  rw [dropWhile_append_cases tail.reverse (']' :: u.reverse)]
  by_cases hnil : tail.reverse.dropWhile pyIsSpace = []
  · rw [if_pos hnil, hnil]
    rw [List.dropWhile_cons, if_neg (by decide)]
    simp
  · rw [if_neg hnil]
    rw [List.reverse_append, List.reverse_cons, List.reverse_reverse]
    simp [List.append_assoc]

theorem matchLine_mk_arrow (w1 i1 f1 w2 w3 i2 f2 w4 s : List Char) (d1 d2 : Bool)
    (a : List Char)
    (hw1 : ∀ c ∈ w1, pyIsSpace c = true) (hw2 : ∀ c ∈ w2, pyIsSpace c = true)
    (hw3 : ∀ c ∈ w3, pyIsSpace c = true) (hw4 : ∀ c ∈ w4, pyIsSpace c = true)
    (hi1 : i1 ≠ []) (hi1d : ∀ c ∈ i1, c.isDigit = true) (hf1 : ∀ c ∈ f1, c.isDigit = true)
    (hi2 : i2 ≠ []) (hi2d : ∀ c ∈ i2, c.isDigit = true) (hf2 : ∀ c ∈ f2, c.isDigit = true)
    (ha : a ∈ ARROWS) :
    matchLine ('[' :: (w1 ++ (numLit i1 d1 f1 ++ (w2 ++ (a ++ (w3 ++ (numLit i2 d2 f2
        ++ (w4 ++ ']' :: s))))))))
      = (if (skipSpaces s).takeWhile (fun ch => ch ≠ '\n') = [] then none
         else some (numVal i1 d1 f1, numVal i2 d2 f2,
           String.mk ((skipSpaces s).takeWhile (fun ch => ch ≠ '\n')))) := by
  obtain ⟨hane, hahead⟩ := arrow_head_facts ha
  unfold matchLine
  dsimp only
  rw [if_pos rfl]
  have hhead1 : ∀ c, (numLit i1 d1 f1 ++ (w2 ++ (a ++ (w3 ++ (numLit i2 d2 f2
      ++ (w4 ++ ']' :: s)))))).head? = some c → pyIsSpace c = false := by
    intro c hc
    obtain ⟨c1, i1t, rfl⟩ := List.exists_cons_of_ne_nil hi1
    have hh : (numLit (c1 :: i1t) d1 f1 ++ (w2 ++ (a ++ (w3 ++ (numLit i2 d2 f2
        ++ (w4 ++ ']' :: s)))))).head? = some c1 := rfl
    rw [hh] at hc
    injection hc with hc
    subst hc
    exact (digit_not_space_dot_gt (hi1d c1 (List.mem_cons_self c1 i1t))).1
  rw [skipSpaces_stop w1 _ hw1 hhead1]
  have hbound1 : ∀ c, (w2 ++ (a ++ (w3 ++ (numLit i2 d2 f2 ++ (w4 ++ ']' :: s))))).head?
      = some c → (c.isDigit = false ∧ c ≠ '.') := by
    intro c hc
    cases w2 with
    | nil =>
      rw [List.nil_append, head?_append_left _ hane] at hc
      have hf := hahead c hc
      exact ⟨hf.2.1, hf.2.2.1⟩
    | cons cw w2t =>
      simp only [List.cons_append, List.head?_cons, Option.some.injEq] at hc
      subst hc
      have hs := space_not_digit_dot_gt (hw2 cw (List.mem_cons_self cw w2t))
      exact ⟨hs.1, hs.2.1⟩
  rw [numTok_numLit i1 f1 _ d1 hi1 hi1d hf1 hbound1]
  dsimp only
  have hheada : ∀ c, (a ++ (w3 ++ (numLit i2 d2 f2 ++ (w4 ++ ']' :: s)))).head? = some c →
      pyIsSpace c = false := by
    intro c hc
    rw [head?_append_left _ hane] at hc
    exact (hahead c hc).1
  rw [skipSpaces_stop w2 _ hw2 hheada]
  have hgtR2 : ∀ c, (w3 ++ (numLit i2 d2 f2 ++ (w4 ++ ']' :: s))).head? = some c →
      c ≠ '>' := by
    intro c hc
    cases w3 with
    | nil =>
      rw [List.nil_append] at hc
      obtain ⟨c2, i2t, rfl⟩ := List.exists_cons_of_ne_nil hi2
      have hh : (numLit (c2 :: i2t) d2 f2 ++ (w4 ++ ']' :: s)).head? = some c2 := rfl
      rw [hh] at hc
      injection hc with hc
      subst hc
      exact (digit_not_space_dot_gt (hi2d c2 (List.mem_cons_self c2 i2t))).2.2
    | cons c3 w3t =>
      simp only [List.cons_append, List.head?_cons, Option.some.injEq] at hc
      subst hc
      exact (space_not_digit_dot_gt (hw3 c3 (List.mem_cons_self c3 w3t))).2.2
  rw [matchArrowThen_arrow a _ ha hgtR2]
  rw [afterArrow_parts w3 i2 f2 w4 s d2 hw3 hw4 hi2 hi2d hf2]
  by_cases hcond : (skipSpaces s).takeWhile (fun ch => ch ≠ '\n') = []
  · rw [if_pos hcond, if_pos hcond]
  · rw [if_neg hcond, if_neg hcond]

/-- C8: two transcript lines that differ only in which arrow glyph (`→`, `->`,
`–`, `-`) separates the two timestamps either parse to identical
`(start, end, text)` triples or are both skipped — the per-line parse
(strip, then the transcript regex) gives the same result for every choice of
arrow, whatever the surrounding whitespace, timestamp digits and trailing
text. -/
theorem arrow_glyph_equivalence
    (w1 i1 f1 w2 w3 i2 f2 w4 tail : List Char) (d1 d2 : Bool) (a1 a2 : List Char)
    (hw1 : ∀ c ∈ w1, pyIsSpace c = true) (hw2 : ∀ c ∈ w2, pyIsSpace c = true)
    (hw3 : ∀ c ∈ w3, pyIsSpace c = true) (hw4 : ∀ c ∈ w4, pyIsSpace c = true)
    (hi1 : i1 ≠ []) (hi1d : ∀ c ∈ i1, c.isDigit = true) (hf1 : ∀ c ∈ f1, c.isDigit = true)
    (hi2 : i2 ≠ []) (hi2d : ∀ c ∈ i2, c.isDigit = true) (hf2 : ∀ c ∈ f2, c.isDigit = true)
    (ha1 : a1 ∈ ARROWS) (ha2 : a2 ∈ ARROWS) :
    parseTranscriptLine (mkTLine w1 i1 d1 f1 w2 a1 w3 i2 d2 f2 w4 tail)
      = parseTranscriptLine (mkTLine w1 i1 d1 f1 w2 a2 w3 i2 d2 f2 w4 tail) := by
  have hstrip : ∀ (a : List Char),
      pyStrip (mkTLine w1 i1 d1 f1 w2 a w3 i2 d2 f2 w4 tail).data
        = '[' :: (w1 ++ (numLit i1 d1 f1 ++ (w2 ++ (a ++ (w3 ++ (numLit i2 d2 f2
            ++ (w4 ++ ']' :: ((tail.reverse.dropWhile pyIsSpace).reverse)))))))) := by
    intro a
    rw [show (mkTLine w1 i1 d1 f1 w2 a w3 i2 d2 f2 w4 tail).data
        = '[' :: (w1 ++ (numLit i1 d1 f1 ++ (w2 ++ (a ++ (w3 ++ (numLit i2 d2 f2
          ++ (w4 ++ ']' :: tail))))))) from by unfold mkTLine; simp [List.append_assoc]]
    unfold pyStrip
    rw [List.dropWhile_cons, if_neg (by decide)]
    have hshape : '[' :: (w1 ++ (numLit i1 d1 f1 ++ (w2 ++ (a ++ (w3 ++ (numLit i2 d2 f2
          ++ (w4 ++ ']' :: tail)))))))
        = ('[' :: (w1 ++ (numLit i1 d1 f1 ++ (w2 ++ (a ++ (w3 ++ (numLit i2 d2 f2 ++ w4)))))))
          ++ ']' :: tail := by
      simp [List.append_assoc]
    rw [hshape, dropTrailing_append]
    simp [List.append_assoc]
  unfold parseTranscriptLine
  rw [hstrip a1, hstrip a2]
  rw [matchLine_mk_arrow w1 i1 f1 w2 w3 i2 f2 w4 _ d1 d2 a1
    hw1 hw2 hw3 hw4 hi1 hi1d hf1 hi2 hi2d hf2 ha1]
  rw [matchLine_mk_arrow w1 i1 f1 w2 w3 i2 f2 w4 _ d1 d2 a2
    hw1 hw2 hw3 hw4 hi1 hi1d hf1 hi2 hi2d hf2 ha2]

/-- C8 witness: the concrete lines `"[1 - 2] hi"` and `"[1 → 2] hi"` — equal
components, different arrow — parse identically. -/
theorem arrow_glyph_equivalence_witness :
    ((∀ c ∈ ([] : List Char), pyIsSpace c = true)
      ∧ (∀ c ∈ [' '], pyIsSpace c = true)
      ∧ (['1'] : List Char) ≠ [] ∧ (∀ c ∈ ['1'], Char.isDigit c = true)
      ∧ (['2'] : List Char) ≠ [] ∧ (∀ c ∈ ['2'], Char.isDigit c = true)
      ∧ (['-'] : List Char) ∈ ARROWS ∧ (['→'] : List Char) ∈ ARROWS)
    ∧ parseTranscriptLine (mkTLine [] ['1'] false [] [' '] ['-'] [' '] ['2'] false [] []
        [' ', 'h', 'i'])
      = parseTranscriptLine (mkTLine [] ['1'] false [] [' '] ['→'] [' '] ['2'] false [] []
        [' ', 'h', 'i']) := by
  refine ⟨⟨by decide, by decide, by decide, by decide, by decide, by decide, by decide,
    by decide⟩, ?_⟩
  exact arrow_glyph_equivalence [] ['1'] [] [' '] [' '] ['2'] [] [] [' ', 'h', 'i']
    false false ['-'] ['→'] (by decide) (by decide) (by decide) (by decide) (by decide)
    (by decide) (by decide) (by decide) (by decide) (by decide) (by decide) (by decide)

end MeetAI
